import Mathlib

/-!
Verification of the line-oriented structural annotator of StyleScanner
(src/StyleScanner.cpp).  Lines are modelled as `List Char`, positions into a
line as `Nat`, and the C++ `int` scope counters as `Int`.  Character
classification follows the C locale for the ASCII range (all characters a
student source file is expected to contain); bytes outside every class
(control characters, non-ASCII) fall through every classifier exactly as they
fall through `findTokenEnd` in the C++ code.
-/

namespace StyleScanner

/-- C locale `isspace` on the ASCII range. -/
def isSpaceCh (c : Char) : Bool :=
  c.toNat = 32 || c.toNat = 9 || c.toNat = 10 || c.toNat = 11 ||
  c.toNat = 12 || c.toNat = 13

/-- C locale `isalpha` on the ASCII range. -/
def isAlphaCh (c : Char) : Bool :=
  (65 ≤ c.toNat && c.toNat ≤ 90) || (97 ≤ c.toNat && c.toNat ≤ 122)

/-- C locale `isdigit`. -/
def isDigitCh (c : Char) : Bool :=
  48 ≤ c.toNat && c.toNat ≤ 57

/-- C locale `isalnum`. -/
def isAlnumCh (c : Char) : Bool :=
  isAlphaCh c || isDigitCh c

/-- C locale `ispunct` on the ASCII range: printable, not alphanumeric, not
space.  Note `ispunct` holds of the underscore (code 95). -/
def isPunctCh (c : Char) : Bool :=
  (33 ≤ c.toNat && c.toNat ≤ 47) || (58 ≤ c.toNat && c.toNat ≤ 64) ||
  (91 ≤ c.toNat && c.toNat ≤ 96) || (123 ≤ c.toNat && c.toNat ≤ 126)

/-- `LEFT_BRACE` of the C++ source (character code 123). -/
def leftBrace : Char := Char.ofNat 123

/-- `RIGHT_BRACE` of the C++ source (character code 125). -/
def rightBrace : Char := Char.ofNat 125

/-- Character of a line at a position, with a space as (never relevant)
out-of-range default; models `line[i]` on an index the C++ code has checked. -/
def chAt (s : List Char) (i : Nat) : Char := s.getD i ' '

theorem alnum_not_space {c : Char} (h : (isAlnumCh c || c == '_') = true) :
    isSpaceCh c = false := by
  simp only [isAlnumCh, isAlphaCh, isDigitCh, isSpaceCh, Bool.or_eq_true,
    Bool.and_eq_true, decide_eq_true_eq, beq_iff_eq] at h
  simp only [isSpaceCh, Bool.or_eq_false_iff, decide_eq_false_iff_not]
  rcases h with ((h | h) | h) | h
  · exact ⟨⟨⟨⟨⟨by omega, by omega⟩, by omega⟩, by omega⟩, by omega⟩, by omega⟩
  · exact ⟨⟨⟨⟨⟨by omega, by omega⟩, by omega⟩, by omega⟩, by omega⟩, by omega⟩
  · exact ⟨⟨⟨⟨⟨by omega, by omega⟩, by omega⟩, by omega⟩, by omega⟩, by omega⟩
  · subst h; decide

theorem digitdot_not_space {c : Char} (h : (isDigitCh c || c == '.') = true) :
    isSpaceCh c = false := by
  simp only [isDigitCh, Bool.or_eq_true, Bool.and_eq_true,
    decide_eq_true_eq, beq_iff_eq] at h
  simp only [isSpaceCh, Bool.or_eq_false_iff, decide_eq_false_iff_not]
  rcases h with h | h
  · exact ⟨⟨⟨⟨⟨by omega, by omega⟩, by omega⟩, by omega⟩, by omega⟩, by omega⟩
  · subst h; decide

theorem punct_not_space {c : Char} (h : isPunctCh c = true) :
    isSpaceCh c = false := by
  simp only [isPunctCh, Bool.or_eq_true, Bool.and_eq_true,
    decide_eq_true_eq] at h
  simp only [isSpaceCh, Bool.or_eq_false_iff, decide_eq_false_iff_not]
  exact ⟨⟨⟨⟨⟨by omega, by omega⟩, by omega⟩, by omega⟩, by omega⟩, by omega⟩

/-! ## The maximal-run scanner

Every loop of the C++ tokenizer of the shape
`while (pos < len && P(s[pos])) pos++;` is embedded as `scanWhile`.
`scanWhileF` is the same loop with an explicit fuel so that it is structural;
`scanWhile` supplies fuel that is always sufficient. -/

def scanWhileF (s : List Char) (p : Char → Bool) : Nat → Nat → Nat
  | 0, pos => pos
  | fuel+1, pos =>
    if pos < s.length then
      if p (chAt s pos) then scanWhileF s p fuel (pos+1) else pos
    else pos

/-- First position at or after `pos` where `p` fails or the line ends:
the value of `pos` after `while (pos < len && p(s[pos])) pos++;`. -/
def scanWhile (s : List Char) (p : Char → Bool) (pos : Nat) : Nat :=
  scanWhileF s p (s.length - pos) pos

theorem scanWhileF_ge (s : List Char) (p : Char → Bool) :
    ∀ fuel pos, pos ≤ scanWhileF s p fuel pos := by
  intro fuel
  induction fuel with
  | zero => intro pos; simp [scanWhileF]
  | succ n ih =>
    intro pos
    simp only [scanWhileF]
    split
    · split
      · exact Nat.le_trans (Nat.le_succ pos) (ih (pos+1))
      · exact Nat.le_refl pos
    · exact Nat.le_refl pos

theorem scanWhileF_le (s : List Char) (p : Char → Bool) :
    ∀ fuel pos, pos ≤ s.length → scanWhileF s p fuel pos ≤ s.length := by
  intro fuel
  induction fuel with
  | zero => intro pos h; simpa [scanWhileF] using h
  | succ n ih =>
    intro pos h
    simp only [scanWhileF]
    split
    · split
      · exact ih (pos+1) (by omega)
      · exact h
    · exact h

theorem scanWhileF_sat (s : List Char) (p : Char → Bool) :
    ∀ fuel pos m, pos ≤ m → m < scanWhileF s p fuel pos →
      p (chAt s m) = true := by
  intro fuel
  induction fuel with
  | zero => intro pos m h1 h2; simp [scanWhileF] at h2; omega
  | succ n ih =>
    intro pos m h1 h2
    simp only [scanWhileF] at h2
    by_cases hl : pos < s.length
    · simp only [hl, if_true] at h2
      cases hp : p (chAt s pos) with
      | true =>
        simp only [hp, if_true] at h2
        rcases Nat.eq_or_lt_of_le h1 with h | h
        · exact h ▸ hp
        · exact ih (pos+1) m h h2
      | false => simp [hp] at h2; omega
    · simp [hl] at h2; omega

theorem scanWhileF_stop (s : List Char) (p : Char → Bool) :
    ∀ fuel pos, s.length - pos ≤ fuel → scanWhileF s p fuel pos < s.length →
      p (chAt s (scanWhileF s p fuel pos)) = false := by
  intro fuel
  induction fuel with
  | zero =>
    intro pos h1 h2
    simp only [scanWhileF] at h2 ⊢
    omega
  | succ n ih =>
    intro pos h1 h2
    simp only [scanWhileF] at h2 ⊢
    by_cases hl : pos < s.length
    · simp only [hl, if_true] at h2 ⊢
      cases hp : p (chAt s pos) with
      | true =>
        simp only [hp, if_true] at h2 ⊢
        exact ih (pos+1) (by omega) h2
      | false => simp [hp]
    · simp [hl] at h2

theorem scanWhile_ge (s : List Char) (p : Char → Bool) (pos : Nat) :
    pos ≤ scanWhile s p pos :=
  scanWhileF_ge s p _ pos

theorem scanWhile_le (s : List Char) (p : Char → Bool) (pos : Nat)
    (h : pos ≤ s.length) : scanWhile s p pos ≤ s.length :=
  scanWhileF_le s p _ pos h

theorem scanWhile_sat (s : List Char) (p : Char → Bool) (pos m : Nat)
    (h1 : pos ≤ m) (h2 : m < scanWhile s p pos) : p (chAt s m) = true :=
  scanWhileF_sat s p _ pos m h1 h2

theorem scanWhile_stop (s : List Char) (p : Char → Bool) (pos : Nat)
    (h : scanWhile s p pos < s.length) :
    p (chAt s (scanWhile s p pos)) = false :=
  scanWhileF_stop s p _ pos (Nat.le_refl _) h

theorem scanWhile_of_not (s : List Char) (p : Char → Bool) (pos : Nat)
    (h : ¬ (pos < s.length ∧ p (chAt s pos) = true)) :
    scanWhile s p pos = pos := by
  unfold scanWhile
  cases hf : s.length - pos with
  | zero => simp [scanWhileF]
  | succ n =>
    simp only [scanWhileF]
    by_cases hl : pos < s.length
    · have hp : p (chAt s pos) ≠ true := fun hc => h ⟨hl, hc⟩
      simp [hl, hp]
    · simp [hl]

theorem scanWhile_of_hold (s : List Char) (p : Char → Bool) (pos : Nat)
    (hl : pos < s.length) (hp : p (chAt s pos) = true) :
    scanWhile s p pos = scanWhile s p (pos+1) := by
  unfold scanWhile
  have hf : s.length - pos = (s.length - (pos+1)) + 1 := by omega
  rw [hf]
  simp [scanWhileF, hl, hp]

/-! ## Tokenizer: `findTokenEnd`, `getNextToken`, `getFirstToken`,
`getLastToken` and the derived full token list. -/

/-- `StyleScanner::findTokenEnd`: from a token start position, consume a
maximal run of word characters, of digit/period characters, or of punctuation
characters, depending on the first character.  A character falling in no class
leaves the position unchanged.  (The C++ code asserts `pos < length` and a
non-space start; out of that precondition we return `pos` unchanged, which is
also what the C++ fall-through does for an unclassifiable character.) -/
def findTokenEnd (s : List Char) (pos : Nat) : Nat :=
  if pos < s.length then
    if isAlphaCh (chAt s pos) || chAt s pos == '_' then
      scanWhile s (fun d => isAlnumCh d || d == '_') pos
    else if isDigitCh (chAt s pos) then
      scanWhile s (fun d => isDigitCh d || d == '.') pos
    else if isPunctCh (chAt s pos) then
      scanWhile s isPunctCh pos
    else pos
  else pos

theorem findTokenEnd_ge (s : List Char) (pos : Nat) :
    pos ≤ findTokenEnd s pos := by
  unfold findTokenEnd
  split
  · split
    · exact scanWhile_ge _ _ _
    · split
      · exact scanWhile_ge _ _ _
      · split
        · exact scanWhile_ge _ _ _
        · exact Nat.le_refl pos
  · exact Nat.le_refl pos

theorem findTokenEnd_le (s : List Char) (pos : Nat) (h : pos ≤ s.length) :
    findTokenEnd s pos ≤ s.length := by
  unfold findTokenEnd
  split
  · split
    · exact scanWhile_le _ _ _ h
    · split
      · exact scanWhile_le _ _ _ h
      · split
        · exact scanWhile_le _ _ _ h
        · exact h
  · exact h

/-- Every character strictly inside the run consumed by `findTokenEnd` is a
non-space character. -/
theorem findTokenEnd_nonspace (s : List Char) (pos : Nat) :
    ∀ m, pos ≤ m → m < findTokenEnd s pos → isSpaceCh (chAt s m) = false := by
  intro m h1 h2
  unfold findTokenEnd at h2
  by_cases hl : pos < s.length
  · rw [if_pos hl] at h2
    by_cases ha : (isAlphaCh (chAt s pos) || chAt s pos == '_') = true
    · rw [if_pos ha] at h2
      have := scanWhile_sat s (fun d => isAlnumCh d || d == '_') pos m h1 h2
      exact alnum_not_space (by simpa [isAlnumCh] using this)
    · rw [if_neg ha] at h2
      by_cases hd : isDigitCh (chAt s pos) = true
      · rw [if_pos hd] at h2
        have := scanWhile_sat s (fun d => isDigitCh d || d == '.') pos m h1 h2
        exact digitdot_not_space (by simpa using this)
      · rw [if_neg hd] at h2
        by_cases hq : isPunctCh (chAt s pos) = true
        · rw [if_pos hq] at h2
          exact punct_not_space (scanWhile_sat s isPunctCh pos m h1 h2)
        · rw [if_neg hq] at h2
          omega
  · rw [if_neg hl] at h2; omega

/-- `StyleScanner::getNextToken`: eat spaces, then return the token found at
the resulting position together with the updated position (the C++ code
updates `pos` through a reference parameter). -/
def getNextToken (s : List Char) (pos : Nat) : List Char × Nat :=
  let p1 := scanWhile s isSpaceCh pos
  if s.length ≤ p1 then ([], p1)
  else
    let e := findTokenEnd s p1
    ((s.drop p1).take (e - p1), e)

/-- `StyleScanner::getFirstToken`. -/
def getFirstToken (s : List Char) : List Char := (getNextToken s 0).1

theorem getNextToken_at_end (s : List Char) (pos : Nat)
    (h : s.length ≤ pos) : getNextToken s pos = ([], pos) := by
  unfold getNextToken
  have h1 : scanWhile s isSpaceCh pos = pos :=
    scanWhile_of_not s _ pos (fun hc => by omega)
  simp [h1, h]

/-- A successful (non-empty) read strictly advances the position and stays
inside the line. -/
theorem getNextToken_advance (s : List Char) (pos : Nat)
    (h : (getNextToken s pos).1 ≠ []) :
    pos < (getNextToken s pos).2 ∧ (getNextToken s pos).2 ≤ s.length := by
  unfold getNextToken at h ⊢
  by_cases hend : s.length ≤ scanWhile s isSpaceCh pos
  · simp [hend] at h
  · simp only [hend, if_false] at h ⊢
    have hp1 : pos ≤ scanWhile s isSpaceCh pos := scanWhile_ge _ _ _
    have hlt : scanWhile s isSpaceCh pos < s.length := by omega
    have hfe : scanWhile s isSpaceCh pos ≤ findTokenEnd s (scanWhile s isSpaceCh pos) :=
      findTokenEnd_ge _ _
    have hfl : findTokenEnd s (scanWhile s isSpaceCh pos) ≤ s.length :=
      findTokenEnd_le _ _ (by omega)
    constructor
    · by_cases he : findTokenEnd s (scanWhile s isSpaceCh pos) = scanWhile s isSpaceCh pos
      · simp [he] at h
      · omega
    · exact hfl

/-- An empty read leaves the classifier at a position where reading again
still yields the empty token at the same position. -/
theorem getNextToken_empty_stable (s : List Char) (pos : Nat)
    (h : (getNextToken s pos).1 = []) :
    getNextToken s ((getNextToken s pos).2) = ([], (getNextToken s pos).2) := by
  unfold getNextToken at h ⊢
  by_cases hend : s.length ≤ scanWhile s isSpaceCh pos
  · simp only [hend, if_true]
    have h1 : scanWhile s isSpaceCh (scanWhile s isSpaceCh pos) =
        scanWhile s isSpaceCh pos :=
      scanWhile_of_not s _ _ (fun hc => by omega)
    simp [h1, hend]
  · simp only [hend, if_false] at h ⊢
    have hlt : scanWhile s isSpaceCh pos < s.length := by omega
    have hfe : scanWhile s isSpaceCh pos ≤ findTokenEnd s (scanWhile s isSpaceCh pos) :=
      findTokenEnd_ge _ _
    have heq : findTokenEnd s (scanWhile s isSpaceCh pos) = scanWhile s isSpaceCh pos := by
      by_contra hne
      have hgt : scanWhile s isSpaceCh pos < findTokenEnd s (scanWhile s isSpaceCh pos) := by
        omega
      have hdrop : (s.drop (scanWhile s isSpaceCh pos)).length =
          s.length - scanWhile s isSpaceCh pos := List.length_drop _ _
      have : (s.drop (scanWhile s isSpaceCh pos)).take
          (findTokenEnd s (scanWhile s isSpaceCh pos) - scanWhile s isSpaceCh pos) ≠ [] := by
        simp only [ne_eq, List.take_eq_nil_iff]
        push_neg
        constructor
        · omega
        · intro hnil
          rw [hnil] at hdrop
          simp at hdrop
          omega
      exact this h
    have hnsp : isSpaceCh (chAt s (scanWhile s isSpaceCh pos)) = false :=
      scanWhile_stop s isSpaceCh pos hlt
    have h1 : scanWhile s isSpaceCh (scanWhile s isSpaceCh pos) =
        scanWhile s isSpaceCh pos :=
      scanWhile_of_not s _ _ (fun hc => by simp [hnsp] at hc)
    simp only [heq, h1, hend, if_false]
    simp [heq]

/-! ### The full token list

`tokenizeFrom s pos` is the sequence of tokens produced by repeatedly calling
`getNextToken` from `pos` until it returns the empty token — the iteration
pattern of `getLastToken`, `showTokens` and all repeated-tokenization
consumers in the C++ code.  A fuel-based structural definition with a
sufficiency proof. -/

def tokenizeF (s : List Char) : Nat → Nat → List (List Char)
  | 0, _ => []
  | fuel+1, pos =>
    let tp := getNextToken s pos
    if tp.1 = [] then [] else tp.1 :: tokenizeF s fuel tp.2

def tokenizeFrom (s : List Char) (pos : Nat) : List (List Char) :=
  tokenizeF s (s.length + 1 - pos) pos

def tokenize (s : List Char) : List (List Char) := tokenizeFrom s 0

theorem tokenizeF_adequate (s : List Char) :
    ∀ fuel pos, s.length + 1 - pos ≤ fuel →
      tokenizeF s fuel pos = tokenizeFrom s pos := by
  intro fuel
  induction fuel using Nat.strong_induction_on with
  | _ fuel ih =>
    intro pos hfuel
    cases fuel with
    | zero =>
      have hpos : s.length < pos := by omega
      have hnil : (getNextToken s pos).1 = [] := by
        rw [getNextToken_at_end s pos (by omega)]
      have h0 : s.length + 1 - pos = 0 := by omega
      unfold tokenizeFrom
      rw [h0]
    | succ fuel =>
      by_cases hpos : s.length < pos
      · have hnil : (getNextToken s pos).1 = [] := by
          rw [getNextToken_at_end s pos (by omega)]
        have h0 : s.length + 1 - pos = 0 := by omega
        unfold tokenizeFrom
        rw [h0]
        simp [tokenizeF, hnil]
      · have h1 : s.length + 1 - pos = (s.length - pos) + 1 := by omega
        unfold tokenizeFrom
        rw [h1]
        simp only [tokenizeF]
        by_cases hnil : (getNextToken s pos).1 = []
        · rw [if_pos hnil, if_pos hnil]
        · rw [if_neg hnil, if_neg hnil]
          have hadv := getNextToken_advance s pos hnil
          have e1 : tokenizeF s fuel (getNextToken s pos).2 =
              tokenizeFrom s (getNextToken s pos).2 :=
            ih fuel (Nat.lt_succ_self _) _ (by omega)
          have e2 : tokenizeF s (s.length - pos) (getNextToken s pos).2 =
              tokenizeFrom s (getNextToken s pos).2 :=
            ih (s.length - pos) (by omega) _ (by omega)
          rw [e1, e2]

theorem tokenizeFrom_eq (s : List Char) (pos : Nat) :
    tokenizeFrom s pos =
      (if (getNextToken s pos).1 = [] then []
       else (getNextToken s pos).1 :: tokenizeFrom s (getNextToken s pos).2) := by
  by_cases hpos : s.length < pos
  · have hnil : (getNextToken s pos).1 = [] := by
      rw [getNextToken_at_end s pos (by omega)]
    have h0 : s.length + 1 - pos = 0 := by omega
    rw [if_pos hnil]
    show tokenizeF s (s.length + 1 - pos) pos = []
    rw [h0]
    rfl
  · have h1 : s.length + 1 - pos = (s.length - pos) + 1 := by omega
    have lhs : tokenizeFrom s pos =
        (if (getNextToken s pos).1 = [] then []
         else (getNextToken s pos).1 ::
           tokenizeF s (s.length - pos) (getNextToken s pos).2) := by
      show tokenizeF s (s.length + 1 - pos) pos = _
      rw [h1]
      simp only [tokenizeF]
    rw [lhs]
    by_cases hnil : (getNextToken s pos).1 = []
    · rw [if_pos hnil, if_pos hnil]
    · rw [if_neg hnil, if_neg hnil]
      have hadv := getNextToken_advance s pos hnil
      rw [tokenizeF_adequate s (s.length - pos) _ (by omega)]

/-- `StyleScanner::getLastToken`, the loop keeping the last non-empty token;
defined through the token list it iterates over. -/
def getLastToken (s : List Char) : List Char :=
  (tokenize s).getLastD []

/-! ### The pointer-skipping loop of `isFunctionHeader` /
`checkVariableNames`: read a token; while it is `"*"`, read again. -/

def starTok : List Char := ['*']

def skipStarsF (s : List Char) : Nat → Nat → List Char × Nat
  | 0, pos => ([], pos)
  | fuel+1, pos =>
    if (getNextToken s pos).1 = starTok then
      skipStarsF s fuel (getNextToken s pos).2
    else getNextToken s pos

/-- `name = getNextToken(s, pos); while (name == "*") name = getNextToken(s, pos);`
returning the final name and position. -/
def skipStarsAt (s : List Char) (pos : Nat) : List Char × Nat :=
  skipStarsF s (s.length + 1 - pos) pos

theorem skipStarsF_adequate (s : List Char) :
    ∀ fuel pos, s.length + 1 - pos ≤ fuel →
      skipStarsF s fuel pos = skipStarsAt s pos := by
  intro fuel
  induction fuel using Nat.strong_induction_on with
  | _ fuel ih =>
    intro pos hfuel
    cases fuel with
    | zero =>
      have h0 : s.length + 1 - pos = 0 := by omega
      unfold skipStarsAt
      rw [h0]
    | succ fuel =>
      by_cases hpos : s.length < pos
      · have hend := getNextToken_at_end s pos (by omega)
        have hns : (getNextToken s pos).1 ≠ starTok := by
          rw [hend]; simp [starTok]
        have h0 : s.length + 1 - pos = 0 := by omega
        unfold skipStarsAt
        rw [h0]
        show (if (getNextToken s pos).1 = starTok then
            skipStarsF s fuel (getNextToken s pos).2
          else getNextToken s pos) = skipStarsF s 0 pos
        rw [if_neg hns, hend]
        rfl
      · have h1 : s.length + 1 - pos = (s.length - pos) + 1 := by omega
        unfold skipStarsAt
        rw [h1]
        simp only [skipStarsF]
        by_cases hstar : (getNextToken s pos).1 = starTok
        · rw [if_pos hstar, if_pos hstar]
          have hne : (getNextToken s pos).1 ≠ [] := by rw [hstar]; decide
          have hadv := getNextToken_advance s pos hne
          have e1 := ih fuel (Nat.lt_succ_self _) (getNextToken s pos).2 (by omega)
          have e2 := ih (s.length - pos) (by omega) (getNextToken s pos).2 (by omega)
          rw [e1, e2]
        · rw [if_neg hstar, if_neg hstar]

theorem skipStarsAt_eq (s : List Char) (pos : Nat) :
    skipStarsAt s pos =
      (if (getNextToken s pos).1 = starTok then
        skipStarsAt s (getNextToken s pos).2
      else getNextToken s pos) := by
  by_cases hpos : s.length < pos
  · have hend := getNextToken_at_end s pos (by omega)
    have hns : (getNextToken s pos).1 ≠ starTok := by
      rw [hend]; simp [starTok]
    rw [if_neg hns, hend]
    have h0 : s.length + 1 - pos = 0 := by omega
    unfold skipStarsAt
    rw [h0]
    rfl
  · have h1 : s.length + 1 - pos = (s.length - pos) + 1 := by omega
    have lhs : skipStarsAt s pos =
        (if (getNextToken s pos).1 = starTok then
          skipStarsF s (s.length - pos) (getNextToken s pos).2
        else getNextToken s pos) := by
      show skipStarsF s (s.length + 1 - pos) pos = _
      rw [h1]
      simp only [skipStarsF]
    rw [lhs]
    by_cases hstar : (getNextToken s pos).1 = starTok
    · rw [if_pos hstar, if_pos hstar]
      have hne : (getNextToken s pos).1 ≠ [] := by rw [hstar]; decide
      have hadv := getNextToken_advance s pos hne
      rw [skipStarsF_adequate s (s.length - pos) _ (by omega)]
    · rw [if_neg hstar, if_neg hstar]

/-- The pointer-skipping loop ends with the result of an actual
`getNextToken` call. -/
theorem skipStars_is_read (s : List Char) :
    ∀ pos, ∃ q, skipStarsAt s pos = getNextToken s q := by
  intro pos
  generalize hk : s.length + 1 - pos = k
  induction k using Nat.strong_induction_on generalizing pos with
  | _ k ih =>
    rw [skipStarsAt_eq]
    by_cases hstar : (getNextToken s pos).1 = starTok
    · rw [if_pos hstar]
      have hne : (getNextToken s pos).1 ≠ [] := by rw [hstar]; decide
      have hadv := getNextToken_advance s pos hne
      exact ih (s.length + 1 - (getNextToken s pos).2) (by omega) _ rfl
    · rw [if_neg hstar]
      exact ⟨pos, rfl⟩

/-- The pointer-skipping loop matches `dropWhile` of `"*"` tokens over the
token list. -/
theorem skipStars_tokenize (s : List Char) :
    ∀ pos, (tokenizeFrom s pos).dropWhile (fun t => t == starTok) =
      (if (skipStarsAt s pos).1 = [] then []
       else (skipStarsAt s pos).1 :: tokenizeFrom s (skipStarsAt s pos).2) := by
  intro pos
  generalize hk : s.length + 1 - pos = k
  induction k using Nat.strong_induction_on generalizing pos with
  | _ k ih =>
    rw [tokenizeFrom_eq, skipStarsAt_eq]
    by_cases hnil : (getNextToken s pos).1 = []
    · have hns : (getNextToken s pos).1 ≠ starTok := by rw [hnil]; decide
      rw [if_pos hnil, if_neg hns]
      simp [List.dropWhile, hnil]
    · rw [if_neg hnil]
      have hadv := getNextToken_advance s pos hnil
      by_cases hstar : (getNextToken s pos).1 = starTok
      · rw [if_pos hstar]
        rw [List.dropWhile_cons_of_pos (by simp [hstar])]
        exact ih (s.length + 1 - (getNextToken s pos).2) (by omega) _ rfl
      · rw [if_neg hstar]
        rw [List.dropWhile_cons_of_neg (by simp [hstar])]
        rw [if_neg hnil]

/-! ## String constants of the C++ source (written as character lists). -/

def cCommentStart : List Char := ['/', '*']
def cCommentEnd : List Char := ['*', '/']
def doubleSlash : List Char := ['/', '/']
def colonColon : List Char := [':', ':']

def kwCase : List Char := ['c', 'a', 's', 'e']
def kwDefault : List Char := ['d', 'e', 'f', 'a', 'u', 'l', 't']
def kwPublic : List Char := ['p', 'u', 'b', 'l', 'i', 'c']
def kwPrivate : List Char := ['p', 'r', 'i', 'v', 'a', 't', 'e']
def kwProtected : List Char := ['p', 'r', 'o', 't', 'e', 'c', 't', 'e', 'd']
def kwClass : List Char := ['c', 'l', 'a', 's', 's']
def kwStruct : List Char := ['s', 't', 'r', 'u', 'c', 't']
def kwInt : List Char := ['i', 'n', 't']
def kwFloat : List Char := ['f', 'l', 'o', 'a', 't']
def kwDouble : List Char := ['d', 'o', 'u', 'b', 'l', 'e']
def kwChar : List Char := ['c', 'h', 'a', 'r']
def kwBool : List Char := ['b', 'o', 'o', 'l']
def kwString : List Char := ['s', 't', 'r', 'i', 'n', 'g']
def kwVoid : List Char := ['v', 'o', 'i', 'd']

/-- `StyleScanner::stringStartsWith`: `s.rfind(t, 0) == 0`, i.e. `t` is a
prefix of `s`. -/
def stringStartsWith (s t : List Char) : Bool := t.isPrefixOf s

/-- `StyleScanner::stringEndsWith`: `s.find(t, s.length()-t.length())` hits,
i.e. `t` is a suffix of `s` (the unsigned underflow for `t` longer than `s`
sends the start position past the end and yields `npos`, hence `false`). -/
def stringEndsWith (s t : List Char) : Bool := t.isSuffixOf s

/-- `StyleScanner::getFirstNonspacePos`: index of the first non-space
character, `-1` if the line is all whitespace. -/
def getFirstNonspacePos : List Char → Int
  | [] => -1
  | c :: rest =>
    if isSpaceCh c then
      if getFirstNonspacePos rest ≥ 0 then getFirstNonspacePos rest + 1 else -1
    else 0

/-- `StyleScanner::getLastNonspacePos`: index of the last non-space
character, `-1` if the line is all whitespace. -/
def getLastNonspacePos : List Char → Int
  | [] => -1
  | c :: rest =>
    if getLastNonspacePos rest ≥ 0 then getLastNonspacePos rest + 1
    else if isSpaceCh c then -1 else 0

/-- `StyleScanner::isBlank` (string overload). -/
def isBlank (l : List Char) : Bool := getFirstNonspacePos l == -1

/-- `StyleScanner::isLineStartOpenBrace`. -/
def isLineStartOpenBrace (l : List Char) : Bool :=
  getFirstNonspacePos l ≥ 0 && chAt l (getFirstNonspacePos l).toNat == leftBrace

/-- `StyleScanner::isLineStartCloseBrace`. -/
def isLineStartCloseBrace (l : List Char) : Bool :=
  getFirstNonspacePos l ≥ 0 && chAt l (getFirstNonspacePos l).toNat == rightBrace

/-- `StyleScanner::isLineEndingSemicolon`. -/
def isLineEndingSemicolon (l : List Char) : Bool :=
  getLastNonspacePos l ≠ -1 && chAt l (getLastNonspacePos l).toNat == ';'

/-- `StyleScanner::isLineLabel`: the first token is one of the five label
keywords. -/
def isLineLabel (l : List Char) : Bool :=
  getFirstToken l == kwCase || getFirstToken l == kwDefault ||
  getFirstToken l == kwPublic || getFirstToken l == kwPrivate ||
  getFirstToken l == kwProtected

/-- `StyleScanner::isBasicType`. -/
def isBasicType (s : List Char) : Bool :=
  s == kwInt || s == kwFloat || s == kwDouble || s == kwChar ||
  s == kwBool || s == kwString || s == kwVoid

/-- `StyleScanner::isNewType`: membership in the registry built by
`scanNewTypeDefs`. -/
def isNewType (newTypes : List (List Char)) (s : List Char) : Bool :=
  newTypes.any (fun t => s == t)

/-- `StyleScanner::isAnyType`. -/
def isAnyType (newTypes : List (List Char)) (s : List Char) : Bool :=
  isBasicType s || isNewType newTypes s

/-- `StyleScanner::isClassKeyword`. -/
def isClassKeyword (s : List Char) : Bool := s == kwClass || s == kwStruct

/-- `StyleScanner::isStartParen`. -/
def isStartParen (s : List Char) : Bool :=
  s.length > 0 && chAt s 0 == '('

/-! ## Comment classifier (`StyleScanner::scanCommentLines`). -/

inductive CommentType where
  | noComment : CommentType
  | cComment : CommentType
  | cppComment : CommentType
deriving DecidableEq, Repr

/-- `(bool) commentLines[line]` — any non-zero tag is a comment. -/
def isCommentBool (t : CommentType) : Bool := t != CommentType.noComment

/-- The tag `scanCommentLines` assigns to one line entered with block-comment
state `inC`: the block-comment tag is written first, the `//` check runs last
and overwrites. -/
def commentLineTag (inC : Bool) (l : List Char) : CommentType :=
  if stringStartsWith (getFirstToken l) doubleSlash then CommentType.cppComment
  else if inC || stringStartsWith (getFirstToken l) cCommentStart then
    CommentType.cComment
  else CommentType.noComment

/-- The block-comment open state carried to the next line: an opening marker
in the first token raises it, a closing marker at the end of the last token
clears it (checked after tagging). -/
def commentStateStep (inC : Bool) (l : List Char) : Bool :=
  if stringEndsWith (getLastToken l) cCommentEnd then false
  else inC || stringStartsWith (getFirstToken l) cCommentStart

def scanCommentsAux (inC : Bool) : List (List Char) → List CommentType
  | [] => []
  | l :: rest => commentLineTag inC l :: scanCommentsAux (commentStateStep inC l) rest

/-- `StyleScanner::scanCommentLines`: one forward pass, state initially
closed. -/
def scanCommentLines (lines : List (List Char)) : List CommentType :=
  scanCommentsAux false lines

/-- The classifier state after processing a list of lines. -/
def commentStateAfter (inC : Bool) (lines : List (List Char)) : Bool :=
  lines.foldl commentStateStep inC

/-- The classifier state on entry to line `k` of a file. -/
def commentStateBefore (lines : List (List Char)) (k : Nat) : Bool :=
  commentStateAfter false (lines.take k)

/-! ## Type registry builder (`StyleScanner::scanNewTypeDefs`).

The pass walks the lines with their comment flags; on a non-comment line
whose first token is the class/struct keyword it appends the following token
(which is the empty token when the line has no further token). -/

def scanNewTypeDefs : List (List Char × Bool) → List (List Char)
  | [] => []
  | (l, isC) :: rest =>
    if !isC && isClassKeyword (getNextToken l 0).1 then
      (getNextToken l (getNextToken l 0).2).1 :: scanNewTypeDefs rest
    else scanNewTypeDefs rest

/-! ## Scope tracker (`StyleScanner::scanScopeLevels`). -/

/-- The running counter across one line's characters: `++` on every left
brace, `--` on every right brace. -/
def braceCount (c : Int) (l : List Char) : Int :=
  l.foldl (fun a ch => if ch = leftBrace then a + 1
                       else if ch = rightBrace then a - 1 else a) c

/-- One step of the running scope counter: a comment-tagged line is not
scanned at all. -/
def counterStep (c : Int) (p : List Char × Bool) : Int :=
  if p.2 then c else braceCount c p.1

/-- `StyleScanner::scanScopeLevels` from a given initial counter: record the
counter, scan the braces, and post-correct a line whose first non-space
character is a closing brace. -/
def scanLevelsAux (c : Int) : List (List Char × Bool) → List Int
  | [] => []
  | p :: rest =>
    (if !p.2 && isLineStartCloseBrace p.1 then c - 1 else c) ::
      scanLevelsAux (counterStep c p) rest

/-! ## Label scope adjuster (`StyleScanner::scanScopeLabels`).

Input: per line, the recorded basic scope level and whether the line is a
non-comment label line.  `lab = 0` is the "not in a label region" sentinel. -/

def scanLabelsAux (lab : Int) : List (Int × Bool) → List Int
  | [] => []
  | p :: rest =>
    if lab = 0 then
      p.1 :: scanLabelsAux (if p.2 then p.1 else lab) rest
    else if p.1 < lab then
      p.1 :: scanLabelsAux 0 rest
    else if p.2 then
      p.1 :: scanLabelsAux lab rest
    else
      (p.1 + 1) :: scanLabelsAux lab rest

/-! ## The pipeline (`StyleScanner::readFile` post-processing). -/

/-- Comment flags of a file, as `scanScopeLevels`/`scanScopeLabels` read
them. -/
def commentFlags (lines : List (List Char)) : List Bool :=
  (scanCommentLines lines).map isCommentBool

def taggedLines (lines : List (List Char)) : List (List Char × Bool) :=
  lines.zip (commentFlags lines)

/-- The scope levels recorded by `scanScopeLevels`, from initial counter
`c` (the real pipeline starts at 0; the parameter lets a scenario start
inside an enclosing scope). -/
def scopeLevelsFrom (c : Int) (lines : List (List Char)) : List Int :=
  scanLevelsAux c (taggedLines lines)

/-- Is line `i` of the file a non-comment label line
(`thisLineLabel` of `scanScopeLabels`)? -/
def labelFlags (lines : List (List Char)) : List Bool :=
  (taggedLines lines).map (fun p => !p.2 && isLineLabel p.1)

/-- Scope levels after both passes (`scanScopeLevels` then
`scanScopeLabels`), from initial counter `c`. -/
def annotateDepthsFrom (c : Int) (lines : List (List Char)) : List Int :=
  scanLabelsAux 0 ((scopeLevelsFrom c lines).zip (labelFlags lines))

/-- The effective scope depths of the real pipeline. -/
def annotateDepths (lines : List (List Char)) : List Int :=
  annotateDepthsFrom 0 lines

/-! ## `StyleScanner::isFunctionHeader`. -/

/-- `StyleScanner::isFunctionHeader`: first token a basic type, line not
ending in a semicolon; skip `"*"` tokens to get the name; resolve one
`"::"`-qualifier; require the following token to start with `'('`.
Note the C++ code tests `isBasicType` only — `isNewType` / `isAnyType` are
never consulted here. -/
def isFunctionHeader (s : List Char) : Bool :=
  if isBasicType (getNextToken s 0).1 && !isLineEndingSemicolon s then
    if (getNextToken s (skipStarsAt s (getNextToken s 0).2).2).1 = colonColon then
      isStartParen
        (getNextToken s
          (getNextToken s
            (getNextToken s (skipStarsAt s (getNextToken s 0).2).2).2).2).1
    else
      isStartParen (getNextToken s (skipStarsAt s (getNextToken s 0).2).2).1
  else false

/-- The function-header condition as the specification words it, over the
token list of the line: the first token is a recognized type name (per the
supplied test), the line does not end in a semicolon, and — after skipping
any `"*"` pointer tokens and an optional `"::"`-qualified name — the
following token starts with an open parenthesis. -/
def specFunctionHeader (typeOK : List Char → Bool) (s : List Char) : Bool :=
  !(tokenize s).isEmpty &&
  typeOK ((tokenize s).headD []) &&
  !isLineEndingSemicolon s &&
  (if ((tokenize s).tail.dropWhile
        (fun t => t == starTok)).tail.headD [] = colonColon then
    isStartParen (((tokenize s).tail.dropWhile
      (fun t => t == starTok)).tail.tail.tail.headD [])
  else
    isStartParen (((tokenize s).tail.dropWhile
      (fun t => t == starTok)).tail.headD []))

/-! ## `StyleScanner::mayBeRunOnLine`. -/

/-- `StyleScanner::mayBeRunOnLine` over the file's lines, comment tags and
(effective) scope levels. -/
def mayBeRunOnLine (lines : List (List Char)) (tags : List CommentType)
    (levels : List Int) (n : Nat) : Bool :=
  if 0 < n && levels.getD n 0 == levels.getD (n-1) 0
      && !isCommentBool (tags.getD (n-1) CommentType.noComment)
      && !isBlank (lines.getD (n-1) []) then
    chAt (lines.getD (n-1) []) (getLastNonspacePos (lines.getD (n-1) [])).toNat != ';'
  else false

/-! ## General helper lemmas -/

theorem zip_getD {α β : Type} (a : List α) (b : List β) (da : α) (db : β) :
    ∀ i, i < a.length → a.length = b.length →
      (a.zip b).getD i (da, db) = (a.getD i da, b.getD i db) := by
  induction a generalizing b with
  | nil => intro i hi _; simp at hi
  | cons x a ih =>
    intro i hi hlen
    cases b with
    | nil => simp at hlen
    | cons y b =>
      cases i with
      | zero => simp [List.zip_cons_cons]
      | succ i =>
        simp only [List.zip_cons_cons, List.getD_cons_succ]
        exact ih b i (by simpa using hi) (by simpa using hlen)

theorem length_scanCommentsAux (inC : Bool) (lines : List (List Char)) :
    (scanCommentsAux inC lines).length = lines.length := by
  induction lines generalizing inC with
  | nil => rfl
  | cons l rest ih => simp [scanCommentsAux, ih]

theorem length_commentFlags (lines : List (List Char)) :
    (commentFlags lines).length = lines.length := by
  simp [commentFlags, scanCommentLines, length_scanCommentsAux]

theorem length_scanLevelsAux (c : Int) (ls : List (List Char × Bool)) :
    (scanLevelsAux c ls).length = ls.length := by
  induction ls generalizing c with
  | nil => rfl
  | cons p rest ih => simp [scanLevelsAux, ih]

theorem length_scanLabelsAux (lab : Int) (ps : List (Int × Bool)) :
    (scanLabelsAux lab ps).length = ps.length := by
  induction ps generalizing lab with
  | nil => rfl
  | cons p rest ih =>
    simp only [scanLabelsAux]
    split
    · simp [ih]
    · split
      · simp [ih]
      · split
        · simp [ih]
        · simp [ih]

theorem length_taggedLines (lines : List (List Char)) :
    (taggedLines lines).length = lines.length := by
  simp [taggedLines, length_commentFlags]

theorem taggedLines_getD (lines : List (List Char)) (i : Nat)
    (hi : i < lines.length) :
    (taggedLines lines).getD i ([], false) =
      (lines.getD i [],
       isCommentBool ((scanCommentLines lines).getD i CommentType.noComment)) := by
  unfold taggedLines
  rw [zip_getD lines (commentFlags lines) [] false i hi (length_commentFlags lines).symm]
  unfold commentFlags
  have : (List.map isCommentBool (scanCommentLines lines)).getD i
      (isCommentBool CommentType.noComment) =
      isCommentBool ((scanCommentLines lines).getD i CommentType.noComment) :=
    List.getD_map _ _ _
  simpa [isCommentBool] using this

/-! ## Claim C10 -/

/-- Claim C10 (confirmed): every call of `getNextToken` either returns the
empty token or strictly advances the position (so the repeated-tokenization
loops of `getLastToken` and all other consumers terminate); moreover, at a
character that is neither whitespace, letter, underscore, digit, nor
punctuation, `getNextToken` returns the empty token without advancing the
position. -/
theorem getNextToken_progress (s : List Char) (pos : Nat) :
    ((getNextToken s pos).1 = [] ∨ pos < (getNextToken s pos).2) ∧
    (pos < s.length → isSpaceCh (chAt s pos) = false →
     isAlphaCh (chAt s pos) = false → isDigitCh (chAt s pos) = false →
     isPunctCh (chAt s pos) = false → chAt s pos ≠ '_' →
     getNextToken s pos = ([], pos)) := by
  constructor
  · by_cases h : (getNextToken s pos).1 = []
    · exact Or.inl h
    · exact Or.inr (getNextToken_advance s pos h).1
  · intro hlen hsp hal hdg hpc hus
    have h1 : scanWhile s isSpaceCh pos = pos :=
      scanWhile_of_not s _ pos (fun hc => by rw [hsp] at hc; exact absurd hc.2 (by simp))
    have he : findTokenEnd s pos = pos := by
      unfold findTokenEnd
      rw [if_pos hlen, if_neg, if_neg, if_neg]
      · rw [hpc]; simp
      · rw [hdg]; simp
      · rw [hal]
        simp only [Bool.false_or]
        intro hc
        exact hus (by simpa using hc)
    unfold getNextToken
    rw [h1]
    rw [if_neg (by omega), he]
    simp

/-- Witness for C10 at the control character `'\x01'`: the tokenizer returns
the empty token at position 0 without advancing. -/
theorem getNextToken_progress_witness :
    getNextToken [Char.ofNat 1] 0 = ([], 0) :=
  (getNextToken_progress [Char.ofNat 1] 0).2 (by decide) (by decide)
    (by decide) (by decide) (by decide) (by decide)

/-! ## Claim C9 -/

theorem scanNewTypeDefs_mem (lt : List (List Char × Bool)) :
    ∀ i, i < lt.length →
      (lt.getD i ([], false)).2 = false →
      isClassKeyword (getNextToken (lt.getD i ([], false)).1 0).1 = true →
      (getNextToken (lt.getD i ([], false)).1
        (getNextToken (lt.getD i ([], false)).1 0).2).1 ∈ scanNewTypeDefs lt := by
  induction lt with
  | nil => intro i hi; simp at hi
  | cons p rest ih =>
    intro i hi hnc hkw
    cases i with
    | zero =>
      simp only [List.getD_cons_zero] at hnc hkw ⊢
      unfold scanNewTypeDefs
      rw [if_pos (by rw [hnc, hkw]; rfl)]
      exact List.mem_cons_self _ _
    | succ i =>
      simp only [List.getD_cons_succ] at hnc hkw ⊢
      have hmem := ih i (by simpa using hi) hnc hkw
      unfold scanNewTypeDefs
      split
      · exact List.mem_cons_of_mem _ hmem
      · exact hmem

/-- Claim C9 (confirmed): a non-comment line whose first token is the
`class`/`struct` keyword with no further token on the line makes the
type-registry build pass append the empty string, and the registry
membership test then accepts the empty string. -/
theorem classKeyword_alone_registers_empty (lines : List (List Char)) (i : Nat)
    (hi : i < lines.length)
    (hnc : (scanCommentLines lines).getD i CommentType.noComment =
      CommentType.noComment)
    (hkw : isClassKeyword (getNextToken (lines.getD i []) 0).1 = true)
    (hempty : (getNextToken (lines.getD i [])
      (getNextToken (lines.getD i []) 0).2).1 = []) :
    isNewType (scanNewTypeDefs (taggedLines lines)) [] = true := by
  have hflag : (taggedLines lines).getD i ([], false) =
      (lines.getD i [], false) := by
    rw [taggedLines_getD lines i hi, hnc]
    rfl
  have hmem := scanNewTypeDefs_mem (taggedLines lines) i
    (by rw [length_taggedLines]; exact hi)
    (by rw [hflag]) (by rw [hflag]; exact hkw)
  rw [hflag] at hmem
  simp only [hempty] at hmem
  simp only [isNewType, List.any_eq_true]
  exact ⟨[], hmem, by rfl⟩

/-- Witness for C9: the one-line file `class` registers the empty string. -/
theorem classKeyword_alone_registers_empty_witness :
    isNewType (scanNewTypeDefs (taggedLines [kwClass])) [] = true :=
  classKeyword_alone_registers_empty [kwClass] 0 (by decide) (by decide)
    (by decide) (by decide)

/-! ## Claim C5 -/

/-- Claim C5 (confirmed): the three lines `public:`, `<TAB>doThing();`, `}`
entered at enclosing brace depth 1 get effective depths `[1, 2, 0]`: the
label line is unadjusted, the body line is pushed one level deeper, and the
closing-brace line is corrected back to the enclosing level. -/
theorem scenarioC_depths :
    annotateDepthsFrom 1
      [kwPublic ++ [':'],
       '\t' :: ['d', 'o', 'T', 'h', 'i', 'n', 'g', '(', ')', ';'],
       [rightBrace]] = [1, 2, 0] := by decide

/-! ## Claim C2 -/

/-- The running scope counter just before line `k` is processed. -/
def scopeCounterBefore (lines : List (List Char)) (k : Nat) : Int :=
  ((taggedLines lines).take k).foldl counterStep 0

theorem braceCount_shift : ∀ (l : List Char) (c : Int),
    braceCount c l = c + braceCount 0 l := by
  intro l
  induction l with
  | nil => intro c; simp [braceCount]
  | cons ch l ih =>
    intro c
    show braceCount (if ch = leftBrace then c + 1
      else if ch = rightBrace then c - 1 else c) l = c + braceCount
      (if ch = leftBrace then (0:Int) + 1 else if ch = rightBrace then 0 - 1 else 0) l
    rw [ih, ih (if ch = leftBrace then (0:Int) + 1 else if ch = rightBrace then 0 - 1 else 0)]
    split
    · omega
    · split
      · omega
      · omega

theorem foldl_take_succ {α β : Type} (f : β → α → β) (d : α) :
    ∀ (l : List α) (i : Nat) (b : β), i < l.length →
      (l.take (i+1)).foldl f b = f ((l.take i).foldl f b) (l.getD i d) := by
  intro l
  induction l with
  | nil => intro i b hi; simp at hi
  | cons x l ih =>
    intro i b hi
    cases i with
    | zero => simp
    | succ i =>
      simp only [List.take_succ_cons, List.foldl_cons, List.getD_cons_succ]
      exact ih i (f b x) (by simpa using hi)

theorem scanLevelsAux_getD (ls : List (List Char × Bool)) :
    ∀ (c : Int) (i : Nat), i < ls.length →
      (scanLevelsAux c ls).getD i 0 =
        ((ls.take i).foldl counterStep c) -
          (if !(ls.getD i ([], false)).2 &&
              isLineStartCloseBrace (ls.getD i ([], false)).1 then 1 else 0) := by
  induction ls with
  | nil => intro c i hi; simp at hi
  | cons p rest ih =>
    intro c i hi
    cases i with
    | zero =>
      simp only [List.take_zero, List.foldl_nil, List.getD_cons_zero]
      show (scanLevelsAux c (p :: rest)).getD 0 0 = _
      unfold scanLevelsAux
      by_cases h : (!p.2 && isLineStartCloseBrace p.1) = true
      · rw [if_pos h]
        simp [h]
      · rw [if_neg h]
        simp only [List.getD_cons_zero]
        rw [if_neg h]
        omega
    | succ i =>
      show (scanLevelsAux c (p :: rest)).getD (i+1) 0 = _
      unfold scanLevelsAux
      simp only [List.getD_cons_succ, List.take_succ_cons, List.foldl_cons]
      exact ih (counterStep c p) i (by simpa using hi)

/-- Claim C2 (confirmed): a non-comment line whose first non-space character
is a closing brace gets its recorded provisional depth decremented by one
after its braces are scanned, and the correction does not leak into the
running counter: the counter carried to the next line is the uncorrected
counter plus the line's net brace balance. -/
theorem scanScopeLevels_closeBrace_correction (lines : List (List Char))
    (i : Nat) (hi : i < lines.length)
    (hnc : (scanCommentLines lines).getD i CommentType.noComment =
      CommentType.noComment)
    (hcb : isLineStartCloseBrace (lines.getD i []) = true) :
    (scopeLevelsFrom 0 lines).getD i 0 = scopeCounterBefore lines i - 1 ∧
    scopeCounterBefore lines (i+1) =
      scopeCounterBefore lines i + braceCount 0 (lines.getD i []) := by
  have hil : i < (taggedLines lines).length := by
    rw [length_taggedLines]; exact hi
  have hpair : (taggedLines lines).getD i ([], false) = (lines.getD i [], false) := by
    rw [taggedLines_getD lines i hi, hnc]
    rfl
  constructor
  · unfold scopeLevelsFrom
    rw [scanLevelsAux_getD (taggedLines lines) 0 i hil, hpair]
    rw [if_pos (by rw [hcb]; rfl)]
    rfl
  · unfold scopeCounterBefore
    rw [foldl_take_succ counterStep ([], false) (taggedLines lines) i _ hil, hpair]
    unfold counterStep
    rw [if_neg (by simp)]
    exact braceCount_shift _ _

/-- Witness for C2: the one-line file `}` records depth `-1` (counter 0 minus
the correction) and carries counter `-1` to the (absent) next line. -/
theorem scanScopeLevels_closeBrace_correction_witness :
    (scopeLevelsFrom 0 [[rightBrace]]).getD 0 0 =
      scopeCounterBefore [[rightBrace]] 0 - 1 ∧
    scopeCounterBefore [[rightBrace]] 1 =
      scopeCounterBefore [[rightBrace]] 0 + braceCount 0 [rightBrace] :=
  scanScopeLevels_closeBrace_correction [[rightBrace]] 0 (by decide)
    (by decide) (by decide)

/-! ## Claim C4 -/

theorem scanLabelsAux_cons (lab : Int) (p : Int × Bool)
    (rest : List (Int × Bool)) :
    scanLabelsAux lab (p :: rest) =
      (if lab = 0 then p.1 :: scanLabelsAux (if p.2 then p.1 else lab) rest
       else if p.1 < lab then p.1 :: scanLabelsAux 0 rest
       else if p.2 then p.1 :: scanLabelsAux lab rest
       else (p.1 + 1) :: scanLabelsAux lab rest) := rfl

theorem scanLabelsAux_adjusted (ps : List (Int × Bool)) :
    ∀ (lab : Int) (i : Nat), i < ps.length →
      (scanLabelsAux lab ps).getD i 0 ≠ (ps.getD i (0, false)).1 →
      ((scanLabelsAux lab ps).getD i 0 = (ps.getD i (0, false)).1 + 1 ∧
       (ps.getD i (0, false)).2 = false ∧
       ((lab ≠ 0 ∧ ∀ m, m ≤ i → lab ≤ (ps.getD m (0, false)).1) ∨
        (∃ j, j < i ∧ (ps.getD j (0, false)).2 = true ∧
          (ps.getD j (0, false)).1 ≠ 0 ∧
          ∀ m, j < m → m ≤ i →
            (ps.getD j (0, false)).1 ≤ (ps.getD m (0, false)).1))) := by
  induction ps with
  | nil => intro lab i hi; simp at hi
  | cons p rest ih =>
    intro lab i hi hne
    by_cases hl : lab = 0
    · subst hl
      have hout : scanLabelsAux 0 (p :: rest) =
          p.1 :: scanLabelsAux (if p.2 then p.1 else 0) rest := by
        rw [scanLabelsAux_cons, if_pos rfl]
      cases i with
      | zero =>
        rw [hout] at hne
        simp at hne
      | succ i =>
        rw [hout] at hne ⊢
        simp only [List.getD_cons_succ] at hne ⊢
        have hri : i < rest.length := by simpa using hi
        by_cases hp : p.2 = true
        · rw [if_pos hp] at hne ⊢
          obtain ⟨hval, hnl, hdisj⟩ := ih p.1 i hri hne
          refine ⟨hval, hnl, Or.inr ?_⟩
          rcases hdisj with ⟨hlab, hall⟩ | ⟨j, hj, hjl, hjnz, hjall⟩
          · refine ⟨0, by omega, hp, hlab, ?_⟩
            intro m hm0 hmi
            cases m with
            | zero => omega
            | succ m =>
              simp only [List.getD_cons_zero, List.getD_cons_succ]
              exact hall m (by omega)
          · refine ⟨j+1, by omega, by simpa using hjl, by simpa using hjnz, ?_⟩
            intro m hm0 hmi
            cases m with
            | zero => omega
            | succ m =>
              simp only [List.getD_cons_succ]
              exact hjall m (by omega) (by omega)
        · have hp' : p.2 = false := by simpa using hp
          rw [if_neg hp] at hne ⊢
          obtain ⟨hval, hnl, hdisj⟩ := ih 0 i hri hne
          refine ⟨hval, hnl, Or.inr ?_⟩
          rcases hdisj with ⟨hlab, _⟩ | ⟨j, hj, hjl, hjnz, hjall⟩
          · exact absurd rfl hlab
          · refine ⟨j+1, by omega, by simpa using hjl, by simpa using hjnz, ?_⟩
            intro m hm0 hmi
            cases m with
            | zero => omega
            | succ m =>
              simp only [List.getD_cons_succ]
              exact hjall m (by omega) (by omega)
    · by_cases hlt : p.1 < lab
      · have hout : scanLabelsAux lab (p :: rest) =
            p.1 :: scanLabelsAux 0 rest := by
          rw [scanLabelsAux_cons, if_neg hl, if_pos hlt]
        cases i with
        | zero =>
          rw [hout] at hne
          simp at hne
        | succ i =>
          rw [hout] at hne ⊢
          simp only [List.getD_cons_succ] at hne ⊢
          have hri : i < rest.length := by simpa using hi
          obtain ⟨hval, hnl, hdisj⟩ := ih 0 i hri hne
          refine ⟨hval, hnl, Or.inr ?_⟩
          rcases hdisj with ⟨hlab, _⟩ | ⟨j, hj, hjl, hjnz, hjall⟩
          · exact absurd rfl hlab
          · refine ⟨j+1, by omega, by simpa using hjl, by simpa using hjnz, ?_⟩
            intro m hm0 hmi
            cases m with
            | zero => omega
            | succ m =>
              simp only [List.getD_cons_succ]
              exact hjall m (by omega) (by omega)
      · by_cases hp : p.2 = true
        · have hout : scanLabelsAux lab (p :: rest) =
              p.1 :: scanLabelsAux lab rest := by
            rw [scanLabelsAux_cons, if_neg hl, if_neg hlt, if_pos hp]
          cases i with
          | zero =>
            rw [hout] at hne
            simp at hne
          | succ i =>
            rw [hout] at hne ⊢
            simp only [List.getD_cons_succ] at hne ⊢
            have hri : i < rest.length := by simpa using hi
            obtain ⟨hval, hnl, hdisj⟩ := ih lab i hri hne
            refine ⟨hval, hnl, ?_⟩
            rcases hdisj with ⟨hlab, hall⟩ | ⟨j, hj, hjl, hjnz, hjall⟩
            · refine Or.inl ⟨hlab, ?_⟩
              intro m hm
              cases m with
              | zero => simpa using (by omega : lab ≤ p.1)
              | succ m =>
                simp only [List.getD_cons_succ]
                exact hall m (by omega)
            · refine Or.inr ⟨j+1, by omega, by simpa using hjl,
                by simpa using hjnz, ?_⟩
              intro m hm0 hmi
              cases m with
              | zero => omega
              | succ m =>
                simp only [List.getD_cons_succ]
                exact hjall m (by omega) (by omega)
        · have hout : scanLabelsAux lab (p :: rest) =
              (p.1 + 1) :: scanLabelsAux lab rest := by
            rw [scanLabelsAux_cons, if_neg hl, if_neg hlt, if_neg hp]
          cases i with
          | zero =>
            rw [hout]
            simp only [List.getD_cons_zero]
            refine ⟨by simp, by simpa using hp, Or.inl ⟨hl, ?_⟩⟩
            intro m hm
            have hm0 : m = 0 := by omega
            subst hm0
            simpa using (by omega : lab ≤ p.1)
          | succ i =>
            rw [hout] at hne ⊢
            simp only [List.getD_cons_succ] at hne ⊢
            have hri : i < rest.length := by simpa using hi
            obtain ⟨hval, hnl, hdisj⟩ := ih lab i hri hne
            refine ⟨hval, hnl, ?_⟩
            rcases hdisj with ⟨hlab, hall⟩ | ⟨j, hj, hjl, hjnz, hjall⟩
            · refine Or.inl ⟨hlab, ?_⟩
              intro m hm
              cases m with
              | zero => simpa using (by omega : lab ≤ p.1)
              | succ m =>
                simp only [List.getD_cons_succ]
                exact hall m (by omega)
            · refine Or.inr ⟨j+1, by omega, by simpa using hjl,
                by simpa using hjnz, ?_⟩
              intro m hm0 hmi
              cases m with
              | zero => omega
              | succ m =>
                simp only [List.getD_cons_succ]
                exact hjall m (by omega) (by omega)

/-- Claim C4 (corrected & amended): a line the label pass adjusts is
incremented by exactly one, is not itself a label line, and lies strictly
after a label line of nonzero recorded depth with every line in between
(and itself) staying at or above that label's depth; and — provided no
recorded depth in the file is negative — an adjusted line has depth at least
1, so a line outside any brace scope is never adjusted.  (On brace-unbalanced
input whose depths go negative the original claim fails: a label line of
negative depth opens a region and lines of depth at most 0 get adjusted; see
the counterexample.) -/
theorem scanScopeLabels_adjust_characterization (ps : List (Int × Bool))
    (i : Nat) (hi : i < ps.length)
    (hadj : (scanLabelsAux 0 ps).getD i 0 ≠ (ps.getD i (0, false)).1) :
    (scanLabelsAux 0 ps).getD i 0 = (ps.getD i (0, false)).1 + 1 ∧
    (ps.getD i (0, false)).2 = false ∧
    (∃ j, j < i ∧ (ps.getD j (0, false)).2 = true ∧
      (ps.getD j (0, false)).1 ≠ 0 ∧
      ∀ m, j < m → m ≤ i →
        (ps.getD j (0, false)).1 ≤ (ps.getD m (0, false)).1) ∧
    ((∀ m, m < ps.length → 0 ≤ (ps.getD m (0, false)).1) →
      0 < (ps.getD i (0, false)).1) := by
  obtain ⟨hval, hnl, hdisj⟩ := scanLabelsAux_adjusted ps 0 i hi hadj
  rcases hdisj with ⟨hlab, _⟩ | ⟨j, hj, hjl, hjnz, hjall⟩
  · exact absurd rfl hlab
  · refine ⟨hval, hnl, ⟨j, hj, hjl, hjnz, hjall⟩, ?_⟩
    intro hpos
    have h1 : 0 ≤ (ps.getD j (0, false)).1 := hpos j (by omega)
    have h2 : (ps.getD j (0, false)).1 ≤ (ps.getD i (0, false)).1 :=
      hjall i (by omega) (by omega)
    omega

/-- Witness for C4 (amended): pairs (depth 1, label) then (depth 1, plain):
the second line is adjusted to 2 = 1 + 1. -/
theorem scanScopeLabels_adjust_characterization_witness :
    (scanLabelsAux 0 [((1:Int), true), ((1:Int), false)]).getD 1 0 =
      ([((1:Int), true), ((1:Int), false)].getD 1 (0, false)).1 + 1 :=
  (scanScopeLabels_adjust_characterization [((1:Int), true), ((1:Int), false)]
    1 (by decide) (by decide)).1

/-- Counterexample to C4 as stated: in the brace-unbalanced file `}` /
`case x:` / `foo;` the third line has recorded depth `-1 ≤ 0` before
adjustment (it is outside any brace scope), yet the label pass increments
it: the claim "a line outside any brace scope (recorded brace depth 0 or
below before adjustment) is never label-adjusted" fails. -/
theorem scanScopeLabels_negative_depth_adjusted :
    (scopeLevelsFrom 0
        [[rightBrace], kwCase ++ [' ', 'x', ':'], ['f', 'o', 'o', ';']]).getD 2 0
      = -1 ∧
    (annotateDepths
        [[rightBrace], kwCase ++ [' ', 'x', ':'], ['f', 'o', 'o', ';']]).getD 2 0
      = (scopeLevelsFrom 0
        [[rightBrace], kwCase ++ [' ', 'x', ':'], ['f', 'o', 'o', ';']]).getD 2 0
        + 1 := by decide

/-! ## Claims C3 and C6 -/

theorem getD_drop {α : Type} (d : α) :
    ∀ (l : List α) (k j : Nat), (l.drop k).getD j d = l.getD (k + j) d := by
  intro l
  induction l with
  | nil => intro k j; simp
  | cons x l ih =>
    intro k j
    cases k with
    | zero => simp
    | succ k =>
      simp only [List.drop_succ_cons]
      rw [ih k j]
      have : k + 1 + j = (k + j) + 1 := by omega
      rw [this, List.getD_cons_succ]

theorem scanCommentsAux_append (a b : List (List Char)) :
    ∀ inC, scanCommentsAux inC (a ++ b) =
      scanCommentsAux inC a ++ scanCommentsAux (commentStateAfter inC a) b := by
  induction a with
  | nil => intro inC; simp [scanCommentsAux, commentStateAfter]
  | cons l rest ih =>
    intro inC
    simp only [List.cons_append, scanCommentsAux, List.foldl_cons,
      commentStateAfter]
    rw [List.append_eq, ih (commentStateStep inC l)]
    rfl

/-- Inside a run of lines none of which bears the block-comment close marker,
entered with the open state set (or opened by the run's first line), the
state stays open throughout and every line is tagged `cppComment` when its
first token starts with `//`, else `cComment`. -/
theorem scanCommentsAux_openRun (ls : List (List Char)) :
    ∀ inC,
      (∀ j, j < ls.length →
        stringEndsWith (getLastToken (ls.getD j [])) cCommentEnd = false) →
      (inC = true ∨ (0 < ls.length ∧
        stringStartsWith (getFirstToken (ls.getD 0 [])) cCommentStart = true)) →
      (commentStateAfter inC ls = true ∧
       ∀ j, j < ls.length →
         (scanCommentsAux inC ls).getD j CommentType.noComment =
           (if stringStartsWith (getFirstToken (ls.getD j [])) doubleSlash = true
            then CommentType.cppComment else CommentType.cComment)) := by
  induction ls with
  | nil =>
    intro inC _ hstart
    rcases hstart with h | h
    · exact ⟨h, fun j hj => by simp at hj⟩
    · simp at h
  | cons l rest ih =>
    intro inC hnc hstart
    have hopen : (inC || stringStartsWith (getFirstToken l) cCommentStart) = true := by
      rcases hstart with h | h
      · rw [h]; rfl
      · have := h.2
        simp only [List.getD_cons_zero] at this
        rw [this]
        simp
    have hstep : commentStateStep inC l = true := by
      unfold commentStateStep
      rw [if_neg ?hcl]
      · exact hopen
      case hcl =>
        have := hnc 0 (by simp)
        simp only [List.getD_cons_zero] at this
        rw [this]
        simp
    have ihr := ih (commentStateStep inC l)
      (fun j hj => by
        have := hnc (j+1) (by simpa using Nat.succ_lt_succ hj)
        simpa using this)
      (Or.inl hstep)
    constructor
    · show commentStateAfter (commentStateStep inC l) rest = true
      exact ihr.1
    · intro j hj
      cases j with
      | zero =>
        simp only [List.getD_cons_zero, scanCommentsAux]
        unfold commentLineTag
        by_cases hds : stringStartsWith (getFirstToken l) doubleSlash = true
        · rw [if_pos hds, if_pos hds]
        · rw [if_neg hds, if_pos hopen, if_neg hds]
      | succ j =>
        simp only [List.getD_cons_succ, scanCommentsAux]
        exact ihr.2 j (by simpa using hj)

/-- Claim C3 (corrected & amended): a line lying strictly inside an open
block comment (block state open on entry, close marker not on the line) is
tagged LineComment if and only if its first token starts with the
line-comment marker — the `//` check runs after block tagging and wins; a
mid-block line whose first token does not start with `//` is tagged
BlockComment. -/
theorem midBlock_tag (lines : List (List Char)) (i : Nat)
    (hi : i < lines.length)
    (hopen : commentStateBefore lines i = true)
    (_hnoclose : stringEndsWith (getLastToken (lines.getD i []))
      cCommentEnd = false)
    (hnods : stringStartsWith (getFirstToken (lines.getD i []))
      doubleSlash = false) :
    (scanCommentLines lines).getD i CommentType.noComment =
      CommentType.cComment := by
  have main : ∀ (ls : List (List Char)) (inC : Bool) (k : Nat),
      k < ls.length →
      commentStateAfter inC (ls.take k) = true →
      stringStartsWith (getFirstToken (ls.getD k [])) doubleSlash = false →
      (scanCommentsAux inC ls).getD k CommentType.noComment =
        CommentType.cComment := by
    intro ls
    induction ls with
    | nil => intro inC k hk; simp at hk
    | cons l rest ih =>
      intro inC k hk hst hds
      cases k with
      | zero =>
        simp only [List.take_zero] at hst
        have hinC : inC = true := hst
        simp only [List.getD_cons_zero] at hds
        simp only [scanCommentsAux, List.getD_cons_zero]
        unfold commentLineTag
        rw [if_neg (by rw [hds]; simp), if_pos (by rw [hinC]; rfl)]
      | succ k =>
        simp only [List.take_succ_cons] at hst
        have hst2 : commentStateAfter (commentStateStep inC l) (rest.take k) = true := hst
        simp only [List.getD_cons_succ] at hds
        simp only [scanCommentsAux, List.getD_cons_succ]
        exact ih (commentStateStep inC l) k (by simpa using hk) hst2 hds
  exact main lines false i hi hopen hnods

/-- Witness for C3 (amended): in the file `/*` / `x` / `*/` the middle line
is mid-block, does not start with `//`, and is tagged BlockComment. -/
theorem midBlock_tag_witness :
    (scanCommentLines [cCommentStart, ['x'], cCommentEnd]).getD 1
      CommentType.noComment = CommentType.cComment :=
  midBlock_tag [cCommentStart, ['x'], cCommentEnd] 1 (by decide) (by decide)
    (by decide) (by decide)

/-- Counterexample to C3 as stated: in the file `/* a` / `// b` / `c */`
line 1 lies strictly inside an open block comment (the state is open on
entry and the close marker appears only on line 2), yet it is tagged
LineComment, not BlockComment. -/
theorem midBlock_lineComment_counterexample :
    commentStateBefore [['/', '*', ' ', 'a'], ['/', '/', ' ', 'b'],
      ['c', ' ', '*', '/']] 1 = true ∧
    stringEndsWith (getLastToken [('/' : Char), '/', ' ', 'b'])
      cCommentEnd = false ∧
    stringEndsWith (getLastToken [('c' : Char), ' ', '*', '/'])
      cCommentEnd = true ∧
    (scanCommentLines [['/', '*', ' ', 'a'], ['/', '/', ' ', 'b'],
      ['c', ' ', '*', '/']]).getD 1 CommentType.noComment =
      CommentType.cppComment := by decide

/-- Claim C6 (corrected & amended): a block-comment opener at line `k` that
is never closed before end of file leaves the classifier state open at end
of file, and every line from `k` through the last line is tagged as a
comment: BlockComment, except that a line whose first token starts with the
line-comment marker is (overridden to) LineComment. -/
theorem unterminated_blockComment (lines : List (List Char)) (k : Nat)
    (hk : k < lines.length)
    (hopen : stringStartsWith (getFirstToken (lines.getD k []))
      cCommentStart = true)
    (hnoclose : ∀ j, j < lines.length → k ≤ j →
      stringEndsWith (getLastToken (lines.getD j [])) cCommentEnd = false) :
    commentStateAfter false lines = true ∧
    ∀ j, j < lines.length → k ≤ j →
      (scanCommentLines lines).getD j CommentType.noComment =
        (if stringStartsWith (getFirstToken (lines.getD j []))
            doubleSlash = true
         then CommentType.cppComment else CommentType.cComment) := by
  have hlen_take : (lines.take k).length = k := List.length_take_of_le (by omega)
  have hdlen : 0 < (lines.drop k).length := by
    rw [List.length_drop]; omega
  have hrun := scanCommentsAux_openRun (lines.drop k)
    (commentStateAfter false (lines.take k))
    (fun j hj => by
      rw [getD_drop]
      exact hnoclose (k + j) (by rw [List.length_drop] at hj; omega) (by omega))
    (Or.inr ⟨hdlen, by rw [getD_drop]; simpa using hopen⟩)
  constructor
  · have hsplit : commentStateAfter false lines =
        commentStateAfter (commentStateAfter false (lines.take k))
          (lines.drop k) := by
      conv_lhs => rw [(List.take_append_drop k lines).symm]
      unfold commentStateAfter
      rw [List.foldl_append]
    rw [hsplit]
    exact hrun.1
  · intro j hj hkj
    have htags : scanCommentLines lines =
        scanCommentsAux false (lines.take k) ++
          scanCommentsAux (commentStateAfter false (lines.take k))
            (lines.drop k) := by
      unfold scanCommentLines
      conv_lhs => rw [(List.take_append_drop k lines).symm]
      exact scanCommentsAux_append _ _ false
    rw [htags]
    rw [List.getD_append_right _ _ _ _
      (by rw [length_scanCommentsAux, hlen_take]; omega)]
    rw [length_scanCommentsAux, hlen_take]
    have := hrun.2 (j - k) (by rw [List.length_drop]; omega)
    rw [getD_drop] at this
    have hjk : k + (j - k) = j := by omega
    rw [hjk] at this
    exact this

/-- Witness for C6 (amended): the two-line file `/*` / `x` is left open and
both lines are tagged BlockComment. -/
theorem unterminated_blockComment_witness :
    commentStateAfter false [cCommentStart, ['x']] = true :=
  (unterminated_blockComment [cCommentStart, ['x']] 0 (by decide) (by decide)
    (by decide)).1

/-- Counterexample to C6 as stated: in the two-line file `/* a` / `// b` the
opener on line 0 is never closed, yet line 1 is tagged LineComment, not
BlockComment. -/
theorem unterminated_blockComment_counterexample :
    stringStartsWith (getFirstToken [('/' : Char), '*', ' ', 'a'])
      cCommentStart = true ∧
    (∀ j, j < 2 → stringEndsWith
      (getLastToken ([[('/' : Char), '*', ' ', 'a'],
        [('/' : Char), '/', ' ', 'b']].getD j [])) cCommentEnd = false) ∧
    (scanCommentLines [['/', '*', ' ', 'a'], ['/', '/', ' ', 'b']]).getD 1
      CommentType.noComment = CommentType.cppComment := by decide

/-! ## Claim C7 -/

theorem drop_eq_chAt_cons (s : List Char) (pos : Nat) (h : pos < s.length) :
    s.drop pos = chAt s pos :: s.drop (pos + 1) := by
  rw [List.drop_eq_getElem_cons h]
  unfold chAt
  rw [List.getD_eq_getElem _ _ h]

theorem filter_drop_spaces (s : List Char) :
    ∀ (k pos : Nat), pos + k ≤ s.length →
      (∀ m, pos ≤ m → m < pos + k → isSpaceCh (chAt s m) = true) →
      (s.drop pos).filter (fun c => !isSpaceCh c) =
        (s.drop (pos + k)).filter (fun c => !isSpaceCh c) := by
  intro k
  induction k with
  | zero => intro pos _ _; rfl
  | succ k ih =>
    intro pos hk hsp
    have hlt : pos < s.length := by omega
    rw [drop_eq_chAt_cons s pos hlt]
    rw [List.filter_cons_of_neg (by simp [hsp pos (by omega) (by omega)])]
    have := ih (pos + 1) (by omega)
      (fun m h1 h2 => hsp m (by omega) (by omega))
    rw [this]
    have : pos + 1 + k = pos + (k + 1) := by omega
    rw [this]

theorem filter_drop_token (s : List Char) :
    ∀ (k pos : Nat), pos + k ≤ s.length →
      (∀ m, pos ≤ m → m < pos + k → isSpaceCh (chAt s m) = false) →
      (s.drop pos).filter (fun c => !isSpaceCh c) =
        (s.drop pos).take k ++
          (s.drop (pos + k)).filter (fun c => !isSpaceCh c) := by
  intro k
  induction k with
  | zero => intro pos _ _; rfl
  | succ k ih =>
    intro pos hk hsp
    have hlt : pos < s.length := by omega
    rw [drop_eq_chAt_cons s pos hlt]
    rw [List.filter_cons_of_pos (by simp [hsp pos (by omega) (by omega)])]
    rw [List.take_succ_cons]
    have hrec := ih (pos + 1) (by omega)
      (fun m h1 h2 => hsp m (by omega) (by omega))
    have harith : pos + 1 + k = pos + (k + 1) := by omega
    rw [harith] at hrec
    rw [List.cons_append]
    rw [hrec]

/-- Claim C7 (corrected & amended): for a line all of whose characters are
whitespace, letters, digits or punctuation (the classes the tokenizer
recognizes), repeatedly applying the tokenizer from position 0 until it
returns the empty token and concatenating the produced tokens yields the
line with its whitespace removed, in order.  (A character outside these
classes stops the iteration and drops the rest of the line; see the
counterexample.) -/
theorem tokenize_concat (s : List Char)
    (hcl : ∀ c ∈ s,
      (isSpaceCh c || isAlphaCh c || isDigitCh c || isPunctCh c) = true) :
    (tokenize s).flatten = s.filter (fun c => !isSpaceCh c) := by
  have main : ∀ (k pos : Nat), s.length + 1 - pos = k → pos ≤ s.length →
      (tokenizeFrom s pos).flatten =
        (s.drop pos).filter (fun c => !isSpaceCh c) := by
    intro k
    induction k using Nat.strong_induction_on with
    | _ k ih =>
      intro pos hk hpos
      rw [tokenizeFrom_eq]
      by_cases hend : s.length ≤ scanWhile s isSpaceCh pos
      · have hp1 : scanWhile s isSpaceCh pos = s.length := by
          have := scanWhile_le s isSpaceCh pos hpos
          omega
        have hng : getNextToken s pos = ([], s.length) := by
          unfold getNextToken
          rw [if_pos (by omega)]
          rw [hp1]
        rw [hng]
        simp only [if_pos rfl, List.flatten_nil]
        have hreg := filter_drop_spaces s (s.length - pos) pos (by omega)
          (fun m h1 h2 => scanWhile_sat s isSpaceCh pos m h1 (by omega))
        rw [hreg]
        have : pos + (s.length - pos) = s.length := by omega
        rw [this]
        simp
      · have hp1lt : scanWhile s isSpaceCh pos < s.length := by omega
        have hp1ge : pos ≤ scanWhile s isSpaceCh pos := scanWhile_ge s _ pos
        have hnsp : isSpaceCh (chAt s (scanWhile s isSpaceCh pos)) = false :=
          scanWhile_stop s isSpaceCh pos hp1lt
        have hmem : chAt s (scanWhile s isSpaceCh pos) ∈ s := by
          unfold chAt
          rw [List.getD_eq_getElem _ _ hp1lt]
          exact List.getElem_mem _
        have hclass := hcl _ hmem
        rw [hnsp] at hclass
        simp only [Bool.false_or, Bool.or_eq_true] at hclass
        have hadv : scanWhile s isSpaceCh pos <
            findTokenEnd s (scanWhile s isSpaceCh pos) := by
          unfold findTokenEnd
          rw [if_pos hp1lt]
          rcases hclass with (hcA | hcD) | hcP
          · rw [if_pos (by simp [hcA])]
            rw [scanWhile_of_hold s _ _ hp1lt (by simp [isAlnumCh, hcA])]
            have := scanWhile_ge s (fun d => isAlnumCh d || d == '_')
              (scanWhile s isSpaceCh pos + 1)
            omega
          · by_cases hcA2 : (isAlphaCh (chAt s (scanWhile s isSpaceCh pos)) ||
                chAt s (scanWhile s isSpaceCh pos) == '_') = true
            · rw [if_pos hcA2]
              rw [scanWhile_of_hold s _ _ hp1lt (by
                simp only [Bool.or_eq_true] at hcA2 ⊢
                rcases hcA2 with h | h
                · exact Or.inl (by simp [isAlnumCh, h])
                · exact Or.inr h)]
              have := scanWhile_ge s (fun d => isAlnumCh d || d == '_')
                (scanWhile s isSpaceCh pos + 1)
              omega
            · rw [if_neg hcA2, if_pos (by simp [hcD])]
              rw [scanWhile_of_hold s _ _ hp1lt (by simp [hcD])]
              have := scanWhile_ge s (fun d => isDigitCh d || d == '.')
                (scanWhile s isSpaceCh pos + 1)
              omega
          · by_cases hcA2 : (isAlphaCh (chAt s (scanWhile s isSpaceCh pos)) ||
                chAt s (scanWhile s isSpaceCh pos) == '_') = true
            · rw [if_pos hcA2]
              rw [scanWhile_of_hold s _ _ hp1lt (by
                simp only [Bool.or_eq_true] at hcA2 ⊢
                rcases hcA2 with h | h
                · exact Or.inl (by simp [isAlnumCh, h])
                · exact Or.inr h)]
              have := scanWhile_ge s (fun d => isAlnumCh d || d == '_')
                (scanWhile s isSpaceCh pos + 1)
              omega
            · rw [if_neg hcA2]
              by_cases hcD2 : isDigitCh (chAt s (scanWhile s isSpaceCh pos)) = true
              · rw [if_pos hcD2]
                rw [scanWhile_of_hold s _ _ hp1lt (by simp [hcD2])]
                have := scanWhile_ge s (fun d => isDigitCh d || d == '.')
                  (scanWhile s isSpaceCh pos + 1)
                omega
              · rw [if_neg hcD2, if_pos hcP]
                rw [scanWhile_of_hold s _ _ hp1lt hcP]
                have := scanWhile_ge s isPunctCh
                  (scanWhile s isSpaceCh pos + 1)
                omega
        have hele : findTokenEnd s (scanWhile s isSpaceCh pos) ≤ s.length :=
          findTokenEnd_le s _ (by omega)
        have hng : getNextToken s pos =
            ((s.drop (scanWhile s isSpaceCh pos)).take
              (findTokenEnd s (scanWhile s isSpaceCh pos) -
                scanWhile s isSpaceCh pos),
             findTokenEnd s (scanWhile s isSpaceCh pos)) := by
          unfold getNextToken
          rw [if_neg (by omega)]
        have hne : (getNextToken s pos).1 ≠ [] := by
          rw [hng]
          simp only [ne_eq, List.take_eq_nil_iff]
          push_neg
          constructor
          · omega
          · intro hnil
            have := List.length_drop (scanWhile s isSpaceCh pos) s
            rw [hnil] at this
            simp at this
            omega
        rw [if_neg hne]
        simp only [List.flatten_cons]
        have hrec := ih (s.length + 1 - (getNextToken s pos).2)
          (by rw [hng]; simp only []; omega) (getNextToken s pos).2 rfl
          (by rw [hng]; exact hele)
        rw [hrec]
        have hsp_reg := filter_drop_spaces s (scanWhile s isSpaceCh pos - pos)
          pos (by omega)
          (fun m h1 h2 => scanWhile_sat s isSpaceCh pos m h1 (by omega))
        have harith : pos + (scanWhile s isSpaceCh pos - pos) =
            scanWhile s isSpaceCh pos := by omega
        rw [harith] at hsp_reg
        rw [hsp_reg]
        have htok_reg := filter_drop_token s
          (findTokenEnd s (scanWhile s isSpaceCh pos) -
            scanWhile s isSpaceCh pos)
          (scanWhile s isSpaceCh pos) (by omega)
          (fun m h1 h2 =>
            findTokenEnd_nonspace s (scanWhile s isSpaceCh pos) m h1 (by omega))
        have harith2 : scanWhile s isSpaceCh pos +
            (findTokenEnd s (scanWhile s isSpaceCh pos) -
              scanWhile s isSpaceCh pos) =
            findTokenEnd s (scanWhile s isSpaceCh pos) := by omega
        rw [harith2] at htok_reg
        rw [htok_reg, hng]
  exact main (s.length + 1) 0 (by omega) (by omega)

/-- Witness for C7 (amended) on the line `int x=5;`. -/
theorem tokenize_concat_witness :
    (tokenize ['i', 'n', 't', ' ', 'x', '=', '5', ';']).flatten =
      ['i', 'n', 't', ' ', 'x', '=', '5', ';'].filter (fun c => !isSpaceCh c) :=
  tokenize_concat ['i', 'n', 't', ' ', 'x', '=', '5', ';'] (by decide)

/-- Counterexample to C7 as stated: on the line `a<SOH>b` (with the control
character of code 1, which is neither whitespace, letter, digit nor
punctuation) the tokenizer stops at the control character, so the
concatenation of all produced tokens drops characters of the line. -/
theorem tokenize_concat_counterexample :
    (tokenize ['a', Char.ofNat 1, 'b']).flatten ≠
      ['a', Char.ofNat 1, 'b'].filter (fun c => !isSpaceCh c) := by decide

/-! ## Claim C8 -/

theorem getLast?_cons_ne {α : Type} (a : α) (l : List α) (h : l ≠ []) :
    (a :: l).getLast? = l.getLast? := by
  cases l with
  | nil => exact absurd rfl h
  | cons b t => exact List.getLast?_cons_cons

theorem getFirstNonspacePos_cons (c : Char) (rest : List Char) :
    getFirstNonspacePos (c :: rest) =
      (if isSpaceCh c then
        (if getFirstNonspacePos rest ≥ 0 then getFirstNonspacePos rest + 1
         else -1)
       else 0) := rfl

theorem getLastNonspacePos_cons (c : Char) (rest : List Char) :
    getLastNonspacePos (c :: rest) =
      (if getLastNonspacePos rest ≥ 0 then getLastNonspacePos rest + 1
       else if isSpaceCh c then -1 else 0) := rfl

/-- `getFirstNonspacePos` is `-1` exactly on all-whitespace lines. -/
theorem firstNonspace_spec (l : List Char) :
    -1 ≤ getFirstNonspacePos l ∧
    (getFirstNonspacePos l = -1 ↔
      l.filter (fun c => !isSpaceCh c) = []) := by
  induction l with
  | nil => exact ⟨by norm_num [getFirstNonspacePos], by simp [getFirstNonspacePos]⟩
  | cons c rest ih =>
    rw [getFirstNonspacePos_cons]
    by_cases hc : isSpaceCh c = true
    · rw [if_pos hc, List.filter_cons_of_neg (by simp [hc])]
      by_cases hr : getFirstNonspacePos rest ≥ 0
      · rw [if_pos hr]
        constructor
        · omega
        · constructor
          · intro h; omega
          · intro h
            have := ih.2.mpr h
            omega
      · rw [if_neg hr]
        have hr1 : getFirstNonspacePos rest = -1 := by
          have := ih.1
          omega
        exact ⟨by omega, by simp [ih.2.mp hr1]⟩
    · rw [if_neg hc]
      have hc' : isSpaceCh c = false := by simpa using hc
      rw [List.filter_cons_of_pos (by simp [hc'])]
      exact ⟨by omega, by constructor <;> intro h <;> simp_all⟩

/-- `getLastNonspacePos` is `-1` exactly on all-whitespace lines, and
otherwise indexes the last character kept by the whitespace filter. -/
theorem lastNonspace_spec (l : List Char) :
    -1 ≤ getLastNonspacePos l ∧
    (getLastNonspacePos l = -1 ↔
      l.filter (fun c => !isSpaceCh c) = []) ∧
    (0 ≤ getLastNonspacePos l →
      (l.filter (fun c => !isSpaceCh c)).getLast? =
        some (chAt l (getLastNonspacePos l).toNat)) := by
  induction l with
  | nil =>
    refine ⟨by norm_num [getLastNonspacePos], by simp [getLastNonspacePos], ?_⟩
    intro h
    norm_num [getLastNonspacePos] at h
  | cons c rest ih =>
    obtain ⟨ih1, ih2, ih3⟩ := ih
    rw [getLastNonspacePos_cons]
    by_cases hr : getLastNonspacePos rest ≥ 0
    · rw [if_pos hr]
      have hfne : rest.filter (fun c => !isSpaceCh c) ≠ [] := by
        intro h
        have := ih2.mpr h
        omega
      have htoNat : (getLastNonspacePos rest + 1).toNat =
          (getLastNonspacePos rest).toNat + 1 := by omega
      refine ⟨by omega, ⟨by intro h; omega, ?_⟩, ?_⟩
      · intro h
        by_cases hc : isSpaceCh c = true
        · exact absurd (by rw [List.filter_cons_of_neg (by simp [hc])] at h; exact h) hfne
        · have hc2 : isSpaceCh c = false := by simpa using hc
          rw [List.filter_cons_of_pos (by simp [hc2])] at h
          exact absurd h (by simp)
      intro _
      have htail := ih3 hr
      have hch : chAt (c :: rest) (getLastNonspacePos rest + 1).toNat =
          chAt rest (getLastNonspacePos rest).toNat := by
        unfold chAt
        rw [htoNat, List.getD_cons_succ]
      rw [hch]
      by_cases hc : isSpaceCh c = true
      · rw [List.filter_cons_of_neg (by simp [hc])]
        exact htail
      · have hc' : isSpaceCh c = false := by simpa using hc
        rw [List.filter_cons_of_pos (by simp [hc'])]
        rw [getLast?_cons_ne c _ hfne]
        exact htail
    · have hr1 : getLastNonspacePos rest = -1 := by omega
      have hfe : rest.filter (fun c => !isSpaceCh c) = [] := ih2.mp hr1
      rw [if_neg hr]
      by_cases hc : isSpaceCh c = true
      · rw [if_pos hc]
        refine ⟨by omega, ⟨fun _ => by
          rw [List.filter_cons_of_neg (by simp [hc])]; exact hfe,
          fun _ => rfl⟩, ?_⟩
        intro h
        omega
      · have hc' : isSpaceCh c = false := by simpa using hc
        rw [if_neg hc]
        refine ⟨by omega, ⟨by intro h; omega, ?_⟩, ?_⟩
        · intro h
          rw [List.filter_cons_of_pos (by simp [hc'])] at h
          simp at h
        · intro _
          rw [List.filter_cons_of_pos (by simp [hc']), hfe]
          rfl

/-- Claim C8 (confirmed): for a valid line index `N`, the continuation
(run-on) predicate holds iff `N ≥ 1`, line `N` has the same effective scope
depth as line `N-1`, line `N-1` is neither a comment line nor blank, and the
last non-space character of line `N-1` is not a semicolon; at `N = 0` it is
false. -/
theorem mayBeRunOnLine_iff (lines : List (List Char)) (n : Nat)
    (_hn : n < lines.length) :
    mayBeRunOnLine lines (scanCommentLines lines) (annotateDepths lines) n
      = true ↔
    (1 ≤ n ∧
     (annotateDepths lines).getD n 0 = (annotateDepths lines).getD (n-1) 0 ∧
     (scanCommentLines lines).getD (n-1) CommentType.noComment =
       CommentType.noComment ∧
     (lines.getD (n-1) []).filter (fun c => !isSpaceCh c) ≠ [] ∧
     ((lines.getD (n-1) []).filter (fun c => !isSpaceCh c)).getLast? ≠
       some ';') := by
  unfold mayBeRunOnLine
  by_cases hcond : (decide (0 < n) &&
      ((annotateDepths lines).getD n 0 ==
        (annotateDepths lines).getD (n-1) 0) &&
      !isCommentBool ((scanCommentLines lines).getD (n-1)
        CommentType.noComment) &&
      !isBlank (lines.getD (n-1) [])) = true
  · rw [if_pos hcond]
    simp only [Bool.and_eq_true, decide_eq_true_eq, beq_iff_eq,
      Bool.not_eq_true'] at hcond
    obtain ⟨⟨⟨hn1, hdep⟩, hcom⟩, hbl⟩ := hcond
    have htag : (scanCommentLines lines).getD (n-1) CommentType.noComment =
        CommentType.noComment := by
      simpa [isCommentBool] using hcom
    have hfpos : getFirstNonspacePos (lines.getD (n-1) []) ≠ -1 := by
      simpa [isBlank] using hbl
    have hfilter : (lines.getD (n-1) []).filter (fun c => !isSpaceCh c) ≠ [] := by
      intro h
      exact hfpos ((firstNonspace_spec _).2.mpr h)
    obtain ⟨hl1, hl2, hl3⟩ := lastNonspace_spec (lines.getD (n-1) [])
    have hlpos : 0 ≤ getLastNonspacePos (lines.getD (n-1) []) := by
      by_contra h
      have : getLastNonspacePos (lines.getD (n-1) []) = -1 := by omega
      exact hfilter (hl2.mp this)
    have hlast := hl3 hlpos
    constructor
    · intro h
      refine ⟨by omega, hdep, htag, hfilter, ?_⟩
      rw [hlast]
      simp only [bne_iff_ne, ne_eq] at h
      intro hc
      exact h (Option.some.inj hc)
    · intro ⟨_, _, _, _, h5⟩
      rw [hlast] at h5
      simp only [bne_iff_ne, ne_eq]
      intro hc
      exact h5 (by rw [hc])
  · rw [if_neg hcond]
    simp only [Bool.and_eq_true, decide_eq_true_eq, beq_iff_eq,
      Bool.not_eq_true', not_and] at hcond
    constructor
    · intro h; exact absurd h (by simp)
    · intro ⟨h1, h2, h3, h4, _⟩
      exfalso
      have hbl : isBlank (lines.getD (n-1) []) = false := by
        simp only [isBlank]
        have hiff := (firstNonspace_spec (lines.getD (n-1) [])).2
        simp only [beq_eq_false_iff_ne, ne_eq]
        intro hc
        exact h4 (hiff.mp hc)
      exact hcond ⟨⟨by omega, h2⟩, by rw [h3]; rfl⟩ hbl

/-- Witness for C8: in the file `int x =` / `5;` the second line is a
continuation line. -/
theorem mayBeRunOnLine_iff_witness :
    mayBeRunOnLine
      [['i', 'n', 't', ' ', 'x', ' ', '='], ['5', ';']]
      (scanCommentLines [['i', 'n', 't', ' ', 'x', ' ', '='], ['5', ';']])
      (annotateDepths [['i', 'n', 't', ' ', 'x', ' ', '='], ['5', ';']])
      1 = true :=
  (mayBeRunOnLine_iff [['i', 'n', 't', ' ', 'x', ' ', '='], ['5', ';']] 1
    (by decide)).mpr (by decide)

/-! ## Claim C1 -/

/-- Claim C1 (corrected & amended): the function-header predicate holds iff
the line's first token is a **built-in** basic type name — the registry of
user-defined class/struct type names is never consulted — the line does not
end in a semicolon, and, after skipping any `*` pointer tokens and resolving
an optional `::` scope qualifier, the following token starts with an open
parenthesis. -/
theorem isFunctionHeader_spec (s : List Char) :
    isFunctionHeader s = specFunctionHeader isBasicType s := by
  by_cases h0 : (getNextToken s 0).1 = []
  · have htok0 : tokenize s = [] := by
      unfold tokenize
      rw [tokenizeFrom_eq, if_pos h0]
    have hbt : isBasicType (getNextToken s 0).1 = false := by
      rw [h0]; decide
    unfold isFunctionHeader specFunctionHeader
    rw [htok0, hbt]
    simp
  · have htok1 : tokenize s =
        (getNextToken s 0).1 :: tokenizeFrom s (getNextToken s 0).2 := by
      unfold tokenize
      rw [tokenizeFrom_eq, if_neg h0]
    by_cases hT : isBasicType (getNextToken s 0).1 = true
    case neg =>
      have hT2 : isBasicType (getNextToken s 0).1 = false := by simpa using hT
      unfold isFunctionHeader specFunctionHeader
      rw [htok1]
      simp [hT2]
    case pos =>
    by_cases hS : isLineEndingSemicolon s = true
    case pos =>
      unfold isFunctionHeader specFunctionHeader
      rw [htok1]
      simp [hS]
    case neg =>
      have hS2 : isLineEndingSemicolon s = false := by simpa using hS
      have hspec : specFunctionHeader isBasicType s =
          (if ((tokenizeFrom s (getNextToken s 0).2).dropWhile
              (fun t => t == starTok)).tail.headD [] = colonColon then
            isStartParen (((tokenizeFrom s (getNextToken s 0).2).dropWhile
              (fun t => t == starTok)).tail.tail.tail.headD [])
          else
            isStartParen (((tokenizeFrom s (getNextToken s 0).2).dropWhile
              (fun t => t == starTok)).tail.headD [])) := by
        unfold specFunctionHeader
        rw [htok1]
        simp only [List.isEmpty_cons, Bool.not_false, List.headD_cons,
          List.tail_cons, hT, hS2, Bool.true_and]
      have hcode : isFunctionHeader s =
          (if (getNextToken s
              (skipStarsAt s (getNextToken s 0).2).2).1 = colonColon then
            isStartParen (getNextToken s (getNextToken s (getNextToken s
              (skipStarsAt s (getNextToken s 0).2).2).2).2).1
          else
            isStartParen (getNextToken s
              (skipStarsAt s (getNextToken s 0).2).2).1) := by
        unfold isFunctionHeader
        rw [if_pos (by rw [hT, hS2]; rfl)]
      rw [hspec, hcode]
      have hdw := skipStars_tokenize s (getNextToken s 0).2
      by_cases hnp : (skipStarsAt s (getNextToken s 0).2).1 = []
      · rw [if_pos hnp] at hdw
        rw [hdw]
        obtain ⟨q, hq⟩ := skipStars_is_read s (getNextToken s 0).2
        have hstable := getNextToken_empty_stable s q (by rw [← hq]; exact hnp)
        rw [← hq] at hstable
        rw [hstable]
        simp only [List.tail_nil, List.headD_nil]
        rw [if_neg (by simp [colonColon]), if_neg (by decide)]
      · rw [if_neg hnp] at hdw
        rw [hdw]
        simp only [List.tail_cons]
        rw [tokenizeFrom_eq s (skipStarsAt s (getNextToken s 0).2).2]
        by_cases hsy : (getNextToken s (skipStarsAt s (getNextToken s 0).2).2).1 = []
        · rw [if_pos hsy]
          simp only [List.headD_nil, List.tail_nil]
          rw [if_neg (by rw [hsy]; decide), if_neg (by decide), hsy]
        · rw [if_neg hsy]
          simp only [List.headD_cons, List.tail_cons]
          by_cases hq1 : (getNextToken s
              (skipStarsAt s (getNextToken s 0).2).2).1 = colonColon
          · rw [if_pos hq1, if_pos hq1]
            rw [tokenizeFrom_eq s (getNextToken s
              (skipStarsAt s (getNextToken s 0).2).2).2]
            by_cases hnp2 : (getNextToken s (getNextToken s
                (skipStarsAt s (getNextToken s 0).2).2).2).1 = []
            · rw [if_pos hnp2]
              have hstable := getNextToken_empty_stable s
                (getNextToken s (skipStarsAt s (getNextToken s 0).2).2).2 hnp2
              rw [hstable]
              simp
            · rw [if_neg hnp2]
              simp only [List.tail_cons]
              rw [tokenizeFrom_eq s (getNextToken s (getNextToken s
                (skipStarsAt s (getNextToken s 0).2).2).2).2]
              by_cases hsy2 : (getNextToken s (getNextToken s (getNextToken s
                  (skipStarsAt s (getNextToken s 0).2).2).2).2).1 = []
              · rw [if_pos hsy2, hsy2]
                simp
              · rw [if_neg hsy2]
                simp
          · rw [if_neg hq1, if_neg hq1]

/-- Counterexample to C1 as stated: in the file `class Foo;` / `Foo x()` the
registry contains `Foo`, the line `Foo x()` satisfies every condition of the
claim with the registry-resolved type `Foo` (specFunctionHeader over
`isAnyType`), yet `isFunctionHeader` rejects it — the code checks
`isBasicType` only and never consults the registry. -/
theorem isFunctionHeader_registry_counterexample :
    specFunctionHeader
      (isAnyType (scanNewTypeDefs (taggedLines
        [['c', 'l', 'a', 's', 's', ' ', 'F', 'o', 'o', ';'],
         ['F', 'o', 'o', ' ', 'x', '(', ')']])))
      ['F', 'o', 'o', ' ', 'x', '(', ')'] = true ∧
    isFunctionHeader ['F', 'o', 'o', ' ', 'x', '(', ')'] = false := by decide

end StyleScanner
